import Mathlib

/-!
Verification of the field-redaction core of `0x00-personal_data/filtered_logger.py`.

The Python function `filter_datum(fields, redaction, message, separator)` runs, for
each `field` in `fields` in order,
    `message = re.sub(field + '=.*?' + separator, field + '=' + redaction + separator, message)`
and returns the final message.  We embed the semantics of this specific regex
substitution on character lists: the pattern `field=.*?separator` matches, at a
given position, the spliced `field` text, then `=`, then a shortest (non-greedy)
run of non-newline characters up to a position where the spliced `separator` text
matches; `re.sub` replaces the leftmost non-overlapping matches, scanning left to
right, resuming after each match, and emits the replacement template
`field=redaction separator` verbatim.  Character matching for the spliced texts is
embedded by `pmatchAt`: an ordinary character matches itself and `.` matches any
character except a newline.  The embedding is therefore exact whenever every
character of `field` and `separator` is either regex-ordinary or `.`, and the
replacement contains no backslash (the only character special in a `re` template).
It does not model the remaining regex metacharacters (`| ( ) [ ] * + ? ^ $` and
braces) nor the `re.error` exception raised when the spliced pattern fails to
compile (for example a field name `(`): the general theorems below therefore carry
the hypothesis `reLiteral` (all pattern characters regex-ordinary), under which
matching is plain literal comparison, while the counterexamples use only inputs at
which the embedding was checked against the Python engine.

The `RedactingFormatter` class first renders
    `"[HOLBERTON] %(name)s %(levelname)s %(asctime)-15s: %(message)s"`
through `logging.Formatter.format` — which, per CPython's `logging` module, stores
`record.getMessage()` into `record.message`, stores the formatted time into
`record.asctime` (the format string uses `asctime`), assigns `record.exc_text`
when `record.exc_info` is set and no exception text is cached, and appends the
exception text and `record.stack_info` to the rendered line — and then redacts the
resulting line with `filter_datum`.  A log record is embedded as a structure
carrying the attributes this path reads and writes; the formatted creation time
and the formatted exception are carried as opaque pre-rendered strings, Python's
falsy `None` and `""` attribute values are both modelled as `""`, and records
carry no percent-format arguments (the program's only logging call,
`logger.info(message)`, passes none, so `getMessage()` returns `str(msg)`).
-/

namespace FilteredLogger

/-- Boolean test that the first list is a prefix of the second. -/
def isPre : List Char → List Char → Bool
  | [], _ => true
  | _ :: _, [] => false
  | a :: p, b :: s => if a = b then isPre p s else false

/-- Boolean test that `p` occurs as a contiguous substring of the second list. -/
def occursIn (p : List Char) : List Char → Bool
  | [] => isPre p []
  | c :: s => isPre p (c :: s) || occursIn p s

/-- Matching of a spliced pattern text against a prefix of the subject: an
ordinary character matches itself, and `.` matches any character except a
newline (Python's `re` without `DOTALL`).  Each pattern character consumes
exactly one subject character, so a successful match has the pattern's length. -/
def pmatchAt : List Char → List Char → Bool
  | [], _ => true
  | _ :: _, [] => false
  | q :: p, c :: s =>
    if q = '.' then (if c = '\n' then false else pmatchAt p s)
    else if q = c then pmatchAt p s else false

/-- Non-greedy search `.*?S`: starting at the head, find the least position at
which the separator text `S` matches, consuming only non-newline characters
(Python's `.` does not match a newline); return the consumed run and the
remainder after the separator match. -/
def ngSearch (S : List Char) : List Char → Option (List Char × List Char)
  | [] => if pmatchAt S [] then some ([], []) else none
  | c :: s =>
    if pmatchAt S (c :: s) then some ([], (c :: s).drop S.length)
    else if c = '\n' then none
    else (ngSearch S s).map (fun vr => (c :: vr.1, vr.2))

/-- Attempt to match the pattern `F=.*?S` at the head of `s`: the field text,
`=`, then the non-greedy run up to the separator.  On success, return the
consumed value run and the remainder of the string after the match. -/
def tryMatch (F S : List Char) (s : List Char) : Option (List Char × List Char) :=
  if pmatchAt (F ++ ['=']) s then ngSearch S (s.drop (F.length + 1)) else none

/-- One `re.sub` pass with pattern `F=.*?S` and replacement `F=R S`, scanning
left to right, replacing leftmost non-overlapping matches; fuelled recursion
(each step consumes at least one character, so `s.length` fuel suffices). -/
def reSubAux (F S R : List Char) : Nat → List Char → List Char
  | 0, s => s
  | _ + 1, [] => []
  | fuel + 1, c :: s =>
    match tryMatch F S (c :: s) with
    | some vr => F ++ '=' :: (R ++ S ++ reSubAux F S R fuel vr.2)
    | none => c :: reSubAux F S R fuel s

/-- One `re.sub(field + '=.*?' + separator, field + '=' + redaction + separator, s)` pass. -/
def re_sub (F S R : List Char) (s : List Char) : List Char := reSubAux F S R s.length s

/-- Whether the pattern `F=.*?S` matches anywhere in `s`. -/
def hasMatch (F S : List Char) : List Char → Bool
  | [] => (tryMatch F S []).isSome
  | c :: s => (tryMatch F S (c :: s)).isSome || hasMatch F S s

/-- One iteration of the loop body of `filter_datum`, on strings. -/
def subOne (field redaction separator message : String) : String :=
  ⟨re_sub field.data separator.data redaction.data message.data⟩

/-- `filter_datum` from `filtered_logger.py`: for each field in order, substitute
`field=.*?separator` by `field=redaction separator` in the message. -/
def filter_datum (fields : List String) (redaction : String) (message : String)
    (separator : String) : String :=
  fields.foldl (fun m field => subOne field redaction separator m) message

/-- Decomposition of a message produced by one `re.sub` pass: the list of
(unmatched chunk, matched value) segments, and the trailing unmatched chunk. -/
def decompAux (F S : List Char) : Nat → List Char → List (List Char × List Char) × List Char
  | 0, s => ([], s)
  | _ + 1, [] => ([], [])
  | fuel + 1, c :: s =>
    match tryMatch F S (c :: s) with
    | some vr =>
      (([], vr.1) :: (decompAux F S fuel vr.2).1, (decompAux F S fuel vr.2).2)
    | none =>
      match decompAux F S fuel s with
      | ([], t) => ([], c :: t)
      | ((u, v) :: ps, t) => ((c :: u, v) :: ps, t)

/-- Rebuild the input message from its decomposition, with the original values. -/
def joinIn (F S : List Char) : List (List Char × List Char) → List Char → List Char
  | [], t => t
  | (u, v) :: ps, t => u ++ F ++ '=' :: (v ++ S ++ joinIn F S ps t)

/-- Rebuild the output of the pass from the decomposition: the same unmatched
chunks, each matched value replaced by the token, field name and separator kept. -/
def joinOut (F S R : List Char) : List (List Char × List Char) → List Char → List Char
  | [], t => t
  | (u, _) :: ps, t => u ++ F ++ '=' :: (R ++ S ++ joinOut F S R ps t)

/-- A matched value is an honest non-greedy value: it contains no newline, and
(for a nonempty separator) the separator does not occur inside it, so it runs
exactly up to the next separator. -/
def goodVal (S v : List Char) : Prop :=
  (∀ c ∈ v, c ≠ '\n') ∧ (S ≠ [] → occursIn S v = false)

/-- One pass preserves everything outside matched spans: the input and the output
are the same interleaving of unmatched chunks with `F=value S` (respectively
`F=token S`) spans. -/
def SpanStep (F S R inp out : List Char) : Prop :=
  ∃ ps t, inp = joinIn F S ps t ∧ out = joinOut F S R ps t ∧ ∀ p ∈ ps, goodVal S p.2

/-- The multi-field redactor is the sequential composition of such passes. -/
def SpanChain (S R : List Char) : List (List Char) → List Char → List Char → Prop
  | [], inp, out => out = inp
  | F :: Fs, inp, out => ∃ mid, SpanStep F S R inp mid ∧ SpanChain S R Fs mid out

/-- Within `T ++ S`, the separator pattern `S` matches at no position before
`T.length` (so a fresh token followed by the separator re-matches exactly up to
that separator). -/
def noEarly (S : List Char) : List Char → Bool
  | [] => true
  | c :: t => !(pmatchAt S (c :: t ++ S)) && noEarly S t

/-- The characters that are special in a Python regular expression pattern;
every other character matches itself literally. -/
def reSpecialChars : List Char :=
  ['.', '^', '$', '*', '+', '?', '\x7b', '\x7d', '[', ']', '\\', '|', '(', ')']

/-- A spliced text is regex-literal when none of its characters is special, so
the engine treats it as plain text; the program's own field names and its `";"`
separator are all regex-literal. -/
def reLiteral (s : List Char) : Bool := s.all (fun c => !(reSpecialChars.contains c))

/-- A position after which the non-greedy search can never succeed: scanning any
continuation that starts with a newline right after `x` fails, because `.` cannot
cross the newline and the separator never matched inside `x` itself. -/
def Blocked (S x : List Char) : Prop :=
  ∀ y, ngSearch S (x ++ '\n' :: y) = none

/-- The PII field tuple from `filtered_logger.py`. -/
def PII_FIELDS : List String := ["name", "email", "phone", "ssn", "password"]

/-- `RedactingFormatter.REDACTION`. -/
def REDACTION : String := "***"

/-- `RedactingFormatter.SEPARATOR`. -/
def SEPARATOR : String := ";"

/-- A log record, carrying the attributes that `logging.Formatter.format` reads
and writes on this path: the attributes rendered by the format string
`"[HOLBERTON] %(name)s %(levelname)s %(asctime)-15s: %(message)s"`, the raw
`msg` (the program logs with no percent arguments, so `getMessage()` returns
`str(msg)`), the pre-rendered creation time (`formatTime`'s result), a flag for
whether `exc_info` is set together with the pre-rendered `formatException`
output, the `stack_info` string, and the cache attributes `message`, `asctime`
and `excText` that `format` assigns.  Python's falsy `None` and `""` values of
`exc_text` and `stack_info` are both modelled as `""`. -/
structure LogRecord where
  name : String
  levelname : String
  msg : String
  createdFmt : String
  excInfo : Bool
  excFmt : String
  stackInfo : String
  message : String
  asctime : String
  excText : String
deriving DecidableEq

/-- `LogRecord.getMessage` with no percent-formatting arguments. -/
def getMessage (r : LogRecord) : String := r.msg

/-- Left-justified padding to a minimum width, as `%-15s` does. -/
def padRight (w : Nat) (s : String) : String :=
  s ++ ⟨List.replicate (w - s.length) ' '⟩

/-- Rendering of the `FORMAT` template from the record's attributes. -/
def formatMessage (r : LogRecord) : String :=
  "[HOLBERTON] " ++ r.name ++ " " ++ r.levelname ++ " " ++ padRight 15 r.asctime
    ++ ": " ++ r.message

/-- Append a newline unless the string already ends with one, as
`if s[-1:] != "\n": s = s + "\n"` does. -/
def ensureNl (s : String) : String :=
  if s.data.getLast? = some '\n' then s else s ++ "\n"

/-- `logging.Formatter.format`: stores `getMessage()` into `record.message`,
stores the formatted time into `record.asctime` (the format string uses
`asctime`), renders the template, then caches the formatted exception into
`record.exc_text` when `record.exc_info` is set and no text is cached, appends
the exception text and the stack info to the line, and returns the line
together with the updated record (CPython mutates the record in place). -/
def Formatter_format (r : LogRecord) : String × LogRecord :=
  let r1 : LogRecord := { r with message := getMessage r }
  let r2 : LogRecord := { r1 with asctime := r1.createdFmt }
  let s0 := formatMessage r2
  let r3 : LogRecord :=
    if r2.excInfo = true ∧ r2.excText = "" then { r2 with excText := r2.excFmt } else r2
  let s1 := if r3.excText = "" then s0 else ensureNl s0 ++ r3.excText
  let s2 := if r3.stackInfo = "" then s1 else ensureNl s1 ++ r3.stackInfo
  (s2, r3)

/-- `RedactingFormatter.format`: render through the base formatter, then redact
the rendered line with the configured fields, `REDACTION` and `SEPARATOR`. -/
def RedactingFormatter_format (fields : List String) (r : LogRecord) : String × LogRecord :=
  (filter_datum fields REDACTION (Formatter_format r).1 SEPARATOR, (Formatter_format r).2)

/-- A concrete record with logger name `user_data`, level `INFO` and message
`email=a@b.com;`, with a fixed pre-rendered creation time and no exception or
stack information. -/
def sampleRecord : LogRecord :=
  { name := "user_data", levelname := "INFO", msg := "email=a@b.com;",
    createdFmt := "2024-06-01 12:00:00,000", excInfo := false, excFmt := "",
    stackInfo := "", message := "", asctime := "", excText := "" }

/-! ### Basic facts about the prefix test -/

theorem isPre_iff (p : List Char) : ∀ s, isPre p s = true ↔ ∃ t, s = p ++ t := by
  induction p with
  | nil => intro s; simp [isPre]
  | cons a p ih =>
    intro s
    cases s with
    | nil =>
      simp only [isPre, List.cons_append]
      constructor
      · intro h; exact absurd h (by simp)
      · rintro ⟨t, ht⟩; exact absurd ht (by simp)
    | cons b s =>
      by_cases hab : a = b
      · subst hab
        simp only [isPre, if_pos rfl]
        constructor
        · intro h
          obtain ⟨t, ht⟩ := (ih s).mp h
          exact ⟨t, by simp [ht]⟩
        · rintro ⟨t, ht⟩
          simp only [List.cons_append, List.cons.injEq, true_and] at ht
          exact (ih s).mpr ⟨t, ht⟩
      · simp only [isPre, if_neg hab]
        constructor
        · intro h; exact absurd h (by simp)
        · rintro ⟨t, ht⟩
          simp only [List.cons_append, List.cons.injEq] at ht
          exact absurd ht.1.symm hab

theorem isPre_self_append (p t : List Char) : isPre p (p ++ t) = true :=
  (isPre_iff p (p ++ t)).mpr ⟨t, rfl⟩

theorem isPre_extend (p x y : List Char) (h : isPre p x = true) : isPre p (x ++ y) = true := by
  obtain ⟨t, rfl⟩ := (isPre_iff p x).mp h
  rw [List.append_assoc]
  exact isPre_self_append p (t ++ y)

theorem drop_append_le (n : Nat) (x y : List Char) (h : n ≤ x.length) :
    (x ++ y).drop n = x.drop n ++ y := by
  rw [List.drop_append_eq_append_drop, Nat.sub_eq_zero_of_le h, List.drop_zero]

/-! ### Basic facts about pattern-prefix matching -/

theorem pmatchAt_eq_isPre (p : List Char) (h : ∀ c ∈ p, c ≠ '.') :
    ∀ s, pmatchAt p s = isPre p s := by
  induction p with
  | nil => intro s; cases s <;> rfl
  | cons q p ih =>
    intro s
    have hq : q ≠ '.' := h q (List.mem_cons_self q p)
    have hp : ∀ c ∈ p, c ≠ '.' := fun c hc => h c (List.mem_cons_of_mem q hc)
    cases s with
    | nil => rfl
    | cons c s =>
      simp only [pmatchAt, isPre, if_neg hq]
      by_cases hqc : q = c
      · rw [if_pos hqc, if_pos hqc, ih hp s]
      · rw [if_neg hqc, if_neg hqc]

theorem pmatchAt_lit_iff (p s : List Char) (h : ∀ c ∈ p, c ≠ '.') :
    pmatchAt p s = true ↔ ∃ t, s = p ++ t := by
  rw [pmatchAt_eq_isPre p h s]
  exact isPre_iff p s

theorem pmatchAt_self_append (p : List Char) : ∀ t, pmatchAt p (p ++ t) = true := by
  induction p with
  | nil => intro t; rfl
  | cons q p ih =>
    intro t
    show pmatchAt (q :: p) (q :: (p ++ t)) = true
    by_cases hq : q = '.'
    · subst hq
      simp only [pmatchAt, if_pos rfl]
      rw [if_neg (by decide : ¬ ('.' : Char) = '\n')]
      exact ih t
    · simp only [pmatchAt, if_neg hq, if_pos rfl]
      exact ih t

theorem pmatchAt_fit (p : List Char) : ∀ x y, p.length ≤ x.length →
    pmatchAt p (x ++ y) = pmatchAt p x := by
  induction p with
  | nil => intro x y _; cases x <;> rfl
  | cons q p ih =>
    intro x y h
    cases x with
    | nil => simp at h
    | cons b x =>
      simp only [List.cons_append, pmatchAt]
      by_cases hq : q = '.'
      · rw [if_pos hq, if_pos hq]
        by_cases hb : b = '\n'
        · rw [if_pos hb, if_pos hb]
        · rw [if_neg hb, if_neg hb]
          exact ih x y (by simpa using h)
      · rw [if_neg hq, if_neg hq]
        by_cases hqb : q = b
        · rw [if_pos hqb, if_pos hqb]
          exact ih x y (by simpa using h)
        · rw [if_neg hqb, if_neg hqb]

theorem pmatchAt_length (p : List Char) : ∀ s, pmatchAt p s = true →
    p.length ≤ s.length := by
  induction p with
  | nil => intro s _; simp
  | cons q p ih =>
    intro s h
    cases s with
    | nil => exact absurd h (by simp [pmatchAt])
    | cons c s =>
      have h2 : pmatchAt p s = true := by
        by_cases hq : q = '.'
        · simp only [pmatchAt, if_pos hq] at h
          by_cases hc : c = '\n'
          · rw [if_pos hc] at h; exact absurd h (by simp)
          · rwa [if_neg hc] at h
        · simp only [pmatchAt, if_neg hq] at h
          by_cases hqc : q = c
          · rwa [if_pos hqc] at h
          · rw [if_neg hqc] at h; exact absurd h (by simp)
      simp only [List.length_cons]
      exact Nat.succ_le_succ (ih s h2)

theorem pmatchAt_nlwindow : ∀ (p : List Char), (∀ c ∈ p, c ≠ '\n') →
    ∀ x z, x.length < p.length → pmatchAt p (x ++ '\n' :: z) = false := by
  intro p
  induction p with
  | nil => intro _ x z h; simp at h
  | cons q p ih =>
    intro hnl x z h
    have hp : ∀ c ∈ p, c ≠ '\n' := fun c hc => hnl c (List.mem_cons_of_mem q hc)
    cases x with
    | nil =>
      show pmatchAt (q :: p) ('\n' :: z) = false
      by_cases hq : q = '.'
      · subst hq
        simp [pmatchAt]
      · have hqn : ¬ q = '\n' := hnl q (List.mem_cons_self q p)
        simp only [pmatchAt, if_neg hq, if_neg hqn]
    | cons b x =>
      show pmatchAt (q :: p) (b :: (x ++ '\n' :: z)) = false
      have h2 : x.length < p.length := by simpa using h
      by_cases hq : q = '.'
      · simp only [pmatchAt, if_pos hq]
        by_cases hb : b = '\n'
        · rw [if_pos hb]
        · rw [if_neg hb]; exact ih hp x z h2
      · simp only [pmatchAt, if_neg hq]
        by_cases hqb : q = b
        · rw [if_pos hqb]; exact ih hp x z h2
        · rw [if_neg hqb]

theorem pmatchAt_nl_false (p x y z : List Char) (hnl : ∀ c ∈ p, c ≠ '\n')
    (h : pmatchAt p (x ++ '\n' :: y) = false) : pmatchAt p (x ++ '\n' :: z) = false := by
  by_cases hl : p.length ≤ x.length
  · rw [pmatchAt_fit p x ('\n' :: z) hl]
    rw [pmatchAt_fit p x ('\n' :: y) hl] at h
    exact h
  · exact pmatchAt_nlwindow p hnl x z (by omega)

/-! ### Facts about the regex-literal character test -/

theorem reLiteral_mem (s : List Char) (h : reLiteral s = true) :
    ∀ c ∈ s, reSpecialChars.contains c = false := by
  intro c hc
  have := (List.all_eq_true.mp h) c hc
  simpa using this

theorem reLiteral_no_dot (s : List Char) (h : reLiteral s = true) : ∀ c ∈ s, c ≠ '.' := by
  intro c hc he
  subst he
  have h2 := reLiteral_mem s h '.' hc
  exact absurd h2 (by decide)

theorem no_dot_append_eq (F : List Char) (hF : ∀ c ∈ F, c ≠ '.') :
    ∀ c ∈ F ++ ['='], c ≠ '.' := by
  intro c hc
  rcases List.mem_append.mp hc with h | h
  · exact hF c h
  · simp only [List.mem_singleton] at h
    subst h
    decide

/-! ### Facts about the non-greedy search -/

theorem ngSearch_eq (S : List Char) (hSd : ∀ c ∈ S, c ≠ '.') : ∀ cs v r,
    ngSearch S cs = some (v, r) → cs = v ++ S ++ r := by
  intro cs
  induction cs with
  | nil =>
    intro v r h
    by_cases hp : pmatchAt S [] = true
    · simp only [ngSearch, if_pos hp, Option.some.injEq, Prod.mk.injEq] at h
      obtain ⟨t, ht⟩ := (pmatchAt_lit_iff S [] hSd).mp hp
      have hS : S = [] := by
        cases S with
        | nil => rfl
        | cons a S => simp at ht
      obtain ⟨rfl, rfl⟩ := h
      simp [hS]
    · simp only [ngSearch, if_neg hp] at h
      exact Option.noConfusion h
  | cons c s ih =>
    intro v r h
    by_cases h1 : pmatchAt S (c :: s) = true
    · simp only [ngSearch, if_pos h1, Option.some.injEq, Prod.mk.injEq] at h
      obtain ⟨t, ht⟩ := (pmatchAt_lit_iff S (c :: s) hSd).mp h1
      obtain ⟨rfl, rfl⟩ := h
      rw [ht, List.drop_left]
      simp
    · by_cases h2 : c = '\n'
      · simp only [ngSearch, if_neg h1, if_pos h2] at h
        exact Option.noConfusion h
      · simp only [ngSearch, if_neg h1, if_neg h2] at h
        cases hng : ngSearch S s with
        | none => rw [hng] at h; exact Option.noConfusion h
        | some vr =>
          rw [hng] at h
          simp only [Option.map_some', Option.some.injEq, Prod.mk.injEq] at h
          obtain ⟨h3, h4⟩ := h
          have hs := ih vr.1 vr.2 (by rw [hng])
          rw [← h3, ← h4]
          simp [hs]

theorem ngSearch_len (S : List Char) : ∀ cs v r, ngSearch S cs = some (v, r) →
    r.length ≤ cs.length := by
  intro cs
  induction cs with
  | nil =>
    intro v r h
    by_cases hp : pmatchAt S [] = true
    · simp only [ngSearch, if_pos hp, Option.some.injEq, Prod.mk.injEq] at h
      rw [← h.2]
    · simp only [ngSearch, if_neg hp] at h
      exact Option.noConfusion h
  | cons c s ih =>
    intro v r h
    by_cases h1 : pmatchAt S (c :: s) = true
    · simp only [ngSearch, if_pos h1, Option.some.injEq, Prod.mk.injEq] at h
      rw [← h.2, List.length_drop]
      omega
    · by_cases h2 : c = '\n'
      · simp only [ngSearch, if_neg h1, if_pos h2] at h
        exact Option.noConfusion h
      · simp only [ngSearch, if_neg h1, if_neg h2] at h
        cases hng : ngSearch S s with
        | none => rw [hng] at h; exact Option.noConfusion h
        | some vr =>
          rw [hng] at h
          simp only [Option.map_some', Option.some.injEq, Prod.mk.injEq] at h
          have h3 := ih vr.1 vr.2 (by rw [hng])
          rw [← h.2]
          simp only [List.length_cons]
          omega

theorem ngSearch_nl (S : List Char) : ∀ cs v r, ngSearch S cs = some (v, r) →
    ∀ c ∈ v, c ≠ '\n' := by
  intro cs
  induction cs with
  | nil =>
    intro v r h
    by_cases hp : pmatchAt S [] = true
    · simp only [ngSearch, if_pos hp, Option.some.injEq, Prod.mk.injEq] at h
      rw [← h.1]
      intro c hc
      simp at hc
    · simp only [ngSearch, if_neg hp] at h
      exact Option.noConfusion h
  | cons c s ih =>
    intro v r h
    by_cases h1 : pmatchAt S (c :: s) = true
    · simp only [ngSearch, if_pos h1, Option.some.injEq, Prod.mk.injEq] at h
      rw [← h.1]
      intro c hc
      simp at hc
    · by_cases h2 : c = '\n'
      · simp only [ngSearch, if_neg h1, if_pos h2] at h
        exact Option.noConfusion h
      · simp only [ngSearch, if_neg h1, if_neg h2] at h
        cases hng : ngSearch S s with
        | none => rw [hng] at h; exact Option.noConfusion h
        | some vr =>
          rw [hng] at h
          simp only [Option.map_some', Option.some.injEq, Prod.mk.injEq] at h
          intro d hd
          rw [← h.1] at hd
          simp only [List.mem_cons] at hd
          cases hd with
          | inl he => rw [he]; exact h2
          | inr he => exact ih vr.1 vr.2 (by rw [hng]) d he

theorem ngSearch_noOccur (S : List Char) (hS : S ≠ []) (hSd : ∀ c ∈ S, c ≠ '.') :
    ∀ cs v r, ngSearch S cs = some (v, r) → occursIn S v = false := by
  intro cs
  induction cs with
  | nil =>
    intro v r h
    by_cases hp : pmatchAt S [] = true
    · obtain ⟨t, ht⟩ := (pmatchAt_lit_iff S [] hSd).mp hp
      cases S with
      | nil => exact absurd rfl hS
      | cons a S => simp at ht
    · simp only [ngSearch, if_neg hp] at h
      exact Option.noConfusion h
  | cons c s ih =>
    intro v r h
    by_cases h1 : pmatchAt S (c :: s) = true
    · simp only [ngSearch, if_pos h1, Option.some.injEq, Prod.mk.injEq] at h
      rw [← h.1]
      show isPre S [] = false
      cases S with
      | nil => exact absurd rfl hS
      | cons a S => rfl
    · by_cases h2 : c = '\n'
      · simp only [ngSearch, if_neg h1, if_pos h2] at h
        exact Option.noConfusion h
      · simp only [ngSearch, if_neg h1, if_neg h2] at h
        cases hng : ngSearch S s with
        | none => rw [hng] at h; exact Option.noConfusion h
        | some vr =>
          rw [hng] at h
          simp only [Option.map_some', Option.some.injEq, Prod.mk.injEq] at h
          have hsplit := ngSearch_eq S hSd s vr.1 vr.2 (by rw [hng])
          have hocc := ih vr.1 vr.2 (by rw [hng])
          rw [← h.1]
          show (isPre S (c :: vr.1) || occursIn S vr.1) = false
          rw [hocc, Bool.or_false]
          by_contra hb
          have hb2 : isPre S (c :: vr.1) = true := by
            cases hx : isPre S (c :: vr.1) with
            | false => exact absurd hx hb
            | true => rfl
          have hb3 : isPre S ((c :: vr.1) ++ (S ++ vr.2)) = true := isPre_extend _ _ _ hb2
          have hb4 : pmatchAt S (c :: s) = true := by
            rw [pmatchAt_eq_isPre S hSd,
              show (c :: s : List Char) = (c :: vr.1) ++ (S ++ vr.2) from by
                simp [hsplit, List.append_assoc]]
            exact hb3
          exact absurd hb4 h1

theorem ngSearch_ne_none (S : List Char) (r : List Char) : ∀ v, (∀ c ∈ v, c ≠ '\n') →
    ngSearch S (v ++ (S ++ r)) ≠ none := by
  intro v
  induction v with
  | nil =>
    intro _
    simp only [List.nil_append]
    cases hsr : S ++ r with
    | nil =>
      have hS : S = [] := by
        cases S with
        | nil => rfl
        | cons a S => simp at hsr
      subst hS
      simp [ngSearch, pmatchAt]
    | cons c cs =>
      have hp : pmatchAt S (c :: cs) = true := by
        rw [← hsr]; exact pmatchAt_self_append S r
      simp [ngSearch, hp]
  | cons c v ih =>
    intro hv
    rw [List.cons_append]
    by_cases h1 : pmatchAt S (c :: (v ++ (S ++ r))) = true
    · simp [ngSearch, h1]
    · have h2 : c ≠ '\n' := hv c (List.mem_cons_self c v)
      simp only [ngSearch, if_neg h1, if_neg h2]
      intro hmap
      rw [Option.map_eq_none'] at hmap
      exact (ih (fun d hd => hv d (List.mem_cons_of_mem c hd))) hmap

theorem noEarly_ngSearch (S R : List Char) (hR : ∀ c ∈ R, c ≠ '\n')
    (hNE : noEarly S R = true) : ∀ w, ngSearch S (R ++ (S ++ w)) = some (R, w) := by
  induction R with
  | nil =>
    intro w
    simp only [List.nil_append]
    cases hsw : S ++ w with
    | nil =>
      have hS : S = [] := by
        cases S with
        | nil => rfl
        | cons a S => simp at hsw
      have hw : w = [] := by
        subst hS; simpa using hsw
      subst hS; subst hw
      simp [ngSearch, pmatchAt]
    | cons c cs =>
      have hp : pmatchAt S (c :: cs) = true := by
        rw [← hsw]; exact pmatchAt_self_append S w
      simp only [ngSearch, if_pos hp]
      rw [← hsw, List.drop_left]
  | cons a R ih =>
    intro w
    simp only [List.cons_append] at hNE ⊢
    have hNE' : noEarly S R = true := by
      have := hNE
      simp only [noEarly, Bool.and_eq_true] at this
      exact this.2
    have hne1 : pmatchAt S (a :: (R ++ S)) = false := by
      have h0 := hNE
      simp only [noEarly, Bool.and_eq_true, Bool.not_eq_true'] at h0
      simpa using h0.1
    have hp : pmatchAt S (a :: (R ++ (S ++ w))) = false := by
      have e : a :: (R ++ (S ++ w)) = (a :: (R ++ S)) ++ w := by
        simp [List.append_assoc]
      rw [e, pmatchAt_fit S (a :: (R ++ S)) w
        (by simp only [List.length_cons, List.length_append]; omega)]
      exact hne1
    have ha : a ≠ '\n' := hR a (List.mem_cons_self a R)
    simp only [ngSearch, if_neg (by simp [hp] : ¬ pmatchAt S (a :: (R ++ (S ++ w))) = true),
      if_neg ha]
    rw [ih (fun d hd => hR d (List.mem_cons_of_mem a hd)) hNE' w]
    rfl

/-! ### Facts about a single pattern match -/

theorem tryMatch_none_nil (F S : List Char) : tryMatch F S [] = none := by
  have h : pmatchAt (F ++ ['=']) [] = false := by
    cases F <;> rfl
  simp [tryMatch, h]

theorem tryMatch_ngSearch (F S s : List Char) (vr : List Char × List Char)
    (h : tryMatch F S s = some vr) : ngSearch S (s.drop (F.length + 1)) = some vr := by
  by_cases hp : pmatchAt (F ++ ['=']) s = true
  · simpa [tryMatch, hp] using h
  · simp [tryMatch, hp] at h

theorem tryMatch_eq (F S s v rem : List Char) (hF : ∀ c ∈ F, c ≠ '.')
    (hS : ∀ c ∈ S, c ≠ '.') (h : tryMatch F S s = some (v, rem)) :
    s = F ++ '=' :: (v ++ S ++ rem) := by
  by_cases hp : pmatchAt (F ++ ['=']) s = true
  · obtain ⟨t, rfl⟩ := (pmatchAt_lit_iff (F ++ ['=']) s (no_dot_append_eq F hF)).mp hp
    have hd : ((F ++ ['=']) ++ t).drop (F.length + 1) = t := by
      have hl : (F ++ ['=']).length = F.length + 1 := by simp
      rw [← hl, List.drop_left]
    have hng := tryMatch_ngSearch F S _ (v, rem) h
    rw [hd] at hng
    have ht := ngSearch_eq S hS t v rem hng
    rw [ht]
    simp [List.append_assoc]
  · simp [tryMatch, hp] at h

theorem tryMatch_nl (F S s v rem : List Char) (h : tryMatch F S s = some (v, rem)) :
    ∀ c ∈ v, c ≠ '\n' :=
  ngSearch_nl S _ v rem (tryMatch_ngSearch F S s (v, rem) h)

theorem tryMatch_noOccur (F S s v rem : List Char) (hS : S ≠ [])
    (hSd : ∀ c ∈ S, c ≠ '.') (h : tryMatch F S s = some (v, rem)) :
    occursIn S v = false :=
  ngSearch_noOccur S hS hSd _ v rem (tryMatch_ngSearch F S s (v, rem) h)

theorem tryMatch_len (F S s v rem : List Char) (h : tryMatch F S s = some (v, rem)) :
    rem.length < s.length := by
  by_cases hp : pmatchAt (F ++ ['=']) s = true
  · have hng := tryMatch_ngSearch F S s (v, rem) h
    have h1 := ngSearch_len S (s.drop (F.length + 1)) v rem hng
    have h2 : F.length + 1 ≤ s.length := by
      have h3 := pmatchAt_length (F ++ ['=']) s hp
      simpa using h3
    have h4 : (s.drop (F.length + 1)).length = s.length - (F.length + 1) :=
      List.length_drop _ _
    omega
  · simp [tryMatch, hp] at h

/-! ### Fuel does not matter once it covers the string -/

theorem reSubAux_none (F S R : List Char) (fuel : Nat) (c : Char) (s : List Char)
    (h : tryMatch F S (c :: s) = none) :
    reSubAux F S R (fuel + 1) (c :: s) = c :: reSubAux F S R fuel s := by
  simp only [reSubAux, h]

theorem reSubAux_some (F S R : List Char) (fuel : Nat) (c : Char) (s v rem : List Char)
    (h : tryMatch F S (c :: s) = some (v, rem)) :
    reSubAux F S R (fuel + 1) (c :: s) = F ++ '=' :: (R ++ S ++ reSubAux F S R fuel rem) := by
  simp only [reSubAux, h]

theorem reSubAux_fuel (F S R : List Char) : ∀ f1 f2 s, s.length ≤ f1 → s.length ≤ f2 →
    reSubAux F S R f1 s = reSubAux F S R f2 s := by
  intro f1
  induction f1 with
  | zero =>
    intro f2 s h1 _
    have hs : s = [] := List.length_eq_zero.mp (Nat.le_zero.mp h1)
    subst hs
    cases f2 <;> rfl
  | succ f1 ih =>
    intro f2 s h1 h2
    cases s with
    | nil => cases f2 <;> rfl
    | cons c w =>
      cases f2 with
      | zero => simp at h2
      | succ f2 =>
        cases hm : tryMatch F S (c :: w) with
        | none =>
          rw [reSubAux_none F S R f1 c w hm, reSubAux_none F S R f2 c w hm]
          have hw1 : w.length ≤ f1 := by simpa using h1
          have hw2 : w.length ≤ f2 := by simpa using h2
          rw [ih f2 w hw1 hw2]
        | some vr =>
          obtain ⟨v, rem⟩ := vr
          rw [reSubAux_some F S R f1 c w v rem hm, reSubAux_some F S R f2 c w v rem hm]
          have hr := tryMatch_len F S (c :: w) v rem hm
          simp only [List.length_cons] at h1 h2 hr
          rw [ih f2 rem (by omega) (by omega)]

theorem re_sub_nil (F S R : List Char) : re_sub F S R [] = [] := rfl

theorem re_sub_none (F S R : List Char) (c : Char) (s : List Char)
    (h : tryMatch F S (c :: s) = none) :
    re_sub F S R (c :: s) = c :: re_sub F S R s := by
  show reSubAux F S R (s.length + 1) (c :: s) = c :: reSubAux F S R s.length s
  exact reSubAux_none F S R s.length c s h

theorem re_sub_some (F S R s v rem : List Char) (h : tryMatch F S s = some (v, rem)) :
    re_sub F S R s = F ++ '=' :: (R ++ S ++ re_sub F S R rem) := by
  cases s with
  | nil => rw [tryMatch_none_nil] at h; exact Option.noConfusion h
  | cons c w =>
    have hlen := tryMatch_len F S (c :: w) v rem h
    simp only [List.length_cons] at hlen
    show reSubAux F S R (w.length + 1) (c :: w) = _
    rw [reSubAux_some F S R w.length c w v rem h]
    rw [reSubAux_fuel F S R w.length rem.length rem (by omega) (Nat.le_refl _)]
    rfl

/-! ### A field with no occurrence is skipped -/

theorem reSubAux_noMatch (F S R : List Char) : ∀ fuel s, hasMatch F S s = false →
    reSubAux F S R fuel s = s := by
  intro fuel
  induction fuel with
  | zero => intro s _; rfl
  | succ fuel ih =>
    intro s h
    cases s with
    | nil => rfl
    | cons c w =>
      have h' : (tryMatch F S (c :: w)).isSome = false ∧ hasMatch F S w = false := by
        simpa [hasMatch] using h
      have hn : tryMatch F S (c :: w) = none := by
        cases hm : tryMatch F S (c :: w) with
        | none => rfl
        | some vr => rw [hm] at h'; simp at h'
      rw [reSubAux_none F S R fuel c w hn, ih w h'.2]

theorem re_sub_noMatch (F S R s : List Char) (h : hasMatch F S s = false) :
    re_sub F S R s = s :=
  reSubAux_noMatch F S R s.length s h

theorem subOne_noMatch (f red sep msg : String)
    (h : hasMatch f.data sep.data msg.data = false) : subOne f red sep msg = msg := by
  show String.mk (re_sub f.data sep.data red.data msg.data) = msg
  rw [re_sub_noMatch f.data sep.data red.data msg.data h]

/-! ### The pass replaces exactly the matched values and keeps everything else -/

theorem decompAux_some (F S : List Char) (fuel : Nat) (c : Char) (s v rem : List Char)
    (h : tryMatch F S (c :: s) = some (v, rem)) :
    decompAux F S (fuel + 1) (c :: s) =
      (([], v) :: (decompAux F S fuel rem).1, (decompAux F S fuel rem).2) := by
  simp only [decompAux, h]

theorem decompAux_none (F S : List Char) (fuel : Nat) (c : Char) (s : List Char)
    (h : tryMatch F S (c :: s) = none) :
    decompAux F S (fuel + 1) (c :: s) =
      match decompAux F S fuel s with
      | ([], t) => ([], c :: t)
      | ((u, v) :: ps, t) => ((c :: u, v) :: ps, t) := by
  simp only [decompAux, h]

theorem joinIn_decomp (F S : List Char) (hF : ∀ c ∈ F, c ≠ '.')
    (hS : ∀ c ∈ S, c ≠ '.') : ∀ fuel s,
    joinIn F S (decompAux F S fuel s).1 (decompAux F S fuel s).2 = s := by
  intro fuel
  induction fuel with
  | zero => intro s; rfl
  | succ fuel ih =>
    intro s
    cases s with
    | nil => rfl
    | cons c w =>
      cases hm : tryMatch F S (c :: w) with
      | some vr =>
        obtain ⟨v, rem⟩ := vr
        rw [decompAux_some F S fuel c w v rem hm]
        show [] ++ F ++ '=' :: (v ++ S ++
          joinIn F S (decompAux F S fuel rem).1 (decompAux F S fuel rem).2) = c :: w
        rw [ih rem]
        rw [tryMatch_eq F S (c :: w) v rem hF hS hm]
        simp
      | none =>
        rw [decompAux_none F S fuel c w hm]
        have hw := ih w
        cases hd : decompAux F S fuel w with
        | mk ps t =>
          rw [hd] at hw
          cases ps with
          | nil =>
            show joinIn F S [] (c :: t) = c :: w
            show c :: t = c :: w
            rw [show t = w from hw]
          | cons p ps =>
            obtain ⟨u, v⟩ := p
            show (c :: u) ++ F ++ '=' :: (v ++ S ++ joinIn F S ps t) = c :: w
            have : u ++ F ++ '=' :: (v ++ S ++ joinIn F S ps t) = w := hw
            rw [← this]
            simp

theorem joinOut_decomp (F S R : List Char) : ∀ fuel s,
    joinOut F S R (decompAux F S fuel s).1 (decompAux F S fuel s).2 = reSubAux F S R fuel s := by
  intro fuel
  induction fuel with
  | zero => intro s; rfl
  | succ fuel ih =>
    intro s
    cases s with
    | nil => rfl
    | cons c w =>
      cases hm : tryMatch F S (c :: w) with
      | some vr =>
        obtain ⟨v, rem⟩ := vr
        rw [decompAux_some F S fuel c w v rem hm, reSubAux_some F S R fuel c w v rem hm]
        show [] ++ F ++ '=' :: (R ++ S ++
          joinOut F S R (decompAux F S fuel rem).1 (decompAux F S fuel rem).2) =
          F ++ '=' :: (R ++ S ++ reSubAux F S R fuel rem)
        rw [ih rem]
        simp
      | none =>
        rw [decompAux_none F S fuel c w hm, reSubAux_none F S R fuel c w hm]
        have hw := ih w
        cases hd : decompAux F S fuel w with
        | mk ps t =>
          rw [hd] at hw
          cases ps with
          | nil =>
            show joinOut F S R [] (c :: t) = c :: reSubAux F S R fuel w
            show c :: t = c :: reSubAux F S R fuel w
            rw [show joinOut F S R [] t = t from rfl] at hw
            rw [hw]
          | cons p ps =>
            obtain ⟨u, v⟩ := p
            show (c :: u) ++ F ++ '=' :: (R ++ S ++ joinOut F S R ps t) =
              c :: reSubAux F S R fuel w
            rw [← hw]
            simp [joinOut]

theorem decomp_goodVal (F S : List Char) (hSd : ∀ c ∈ S, c ≠ '.') :
    ∀ fuel s p, p ∈ (decompAux F S fuel s).1 → goodVal S p.2 := by
  intro fuel
  induction fuel with
  | zero => intro s p hp; simp [decompAux] at hp
  | succ fuel ih =>
    intro s p hp
    cases s with
    | nil => simp [decompAux] at hp
    | cons c w =>
      cases hm : tryMatch F S (c :: w) with
      | some vr =>
        obtain ⟨v, rem⟩ := vr
        rw [decompAux_some F S fuel c w v rem hm] at hp
        simp only [List.mem_cons] at hp
        cases hp with
        | inl he =>
          rw [he]
          exact ⟨tryMatch_nl F S (c :: w) v rem hm,
            fun hS => tryMatch_noOccur F S (c :: w) v rem hS hSd hm⟩
        | inr he => exact ih rem p he
      | none =>
        rw [decompAux_none F S fuel c w hm] at hp
        cases hd : decompAux F S fuel w with
        | mk ps t =>
          rw [hd] at hp
          cases ps with
          | nil => simp at hp
          | cons q qs =>
            obtain ⟨u, v⟩ := q
            simp only [List.mem_cons] at hp
            cases hp with
            | inl he =>
              rw [he]
              have : (u, v) ∈ (decompAux F S fuel w).1 := by
                rw [hd]; exact List.mem_cons_self _ _
              exact ih w (u, v) this
            | inr he =>
              have : p ∈ (decompAux F S fuel w).1 := by
                rw [hd]; exact List.mem_cons_of_mem _ he
              exact ih w p this

theorem spanStep_re_sub (F S R s : List Char) (hF : ∀ c ∈ F, c ≠ '.')
    (hS : ∀ c ∈ S, c ≠ '.') : SpanStep F S R s (re_sub F S R s) :=
  ⟨(decompAux F S s.length s).1, (decompAux F S s.length s).2,
    (joinIn_decomp F S hF hS s.length s).symm, (joinOut_decomp F S R s.length s).symm,
    fun p hp => decomp_goodVal F S hS s.length s p hp⟩

/-! ### A second pass leaves the output unchanged (for a well-behaved token) -/

theorem ngSearch_blocked (S : List Char) (hS : ∀ c ∈ S, c ≠ '\n') :
    ∀ g v r, (∀ c ∈ v, c ≠ '\n') → ngSearch S (g ++ (v ++ (S ++ r))) = none →
      ∃ g1 g2, g = g1 ++ '\n' :: g2 ∧ Blocked S g1 := by
  intro g
  induction g with
  | nil =>
    intro v r hv h
    rw [List.nil_append] at h
    exact absurd h (ngSearch_ne_none S r v hv)
  | cons a g ih =>
    intro v r hv h
    rw [List.cons_append] at h
    by_cases h1 : pmatchAt S (a :: (g ++ (v ++ (S ++ r)))) = true
    · simp only [ngSearch, if_pos h1] at h
      exact Option.noConfusion h
    · have hSne : S ≠ [] := by
        intro h0
        subst h0
        exact h1 rfl
      by_cases h2 : a = '\n'
      · subst h2
        refine ⟨[], g, by simp, ?_⟩
        intro y
        rw [List.nil_append]
        have hp : pmatchAt S ('\n' :: y) = false := by
          have h3 := pmatchAt_nlwindow S hS [] y (List.length_pos.mpr hSne)
          simpa using h3
        simp [ngSearch, hp]
      · simp only [ngSearch, if_neg h1, if_neg h2] at h
        rw [Option.map_eq_none'] at h
        obtain ⟨g1, g2, rfl, hb⟩ := ih v r hv h
        refine ⟨a :: g1, g2, by simp, ?_⟩
        intro y
        rw [List.cons_append]
        have hfalse1 : pmatchAt S ((a :: g1) ++ '\n' :: (g2 ++ (v ++ (S ++ r)))) = false := by
          have e : (a :: g1) ++ '\n' :: (g2 ++ (v ++ (S ++ r)))
              = a :: ((g1 ++ '\n' :: g2) ++ (v ++ (S ++ r))) := by simp
          rw [e]
          cases hx : pmatchAt S (a :: ((g1 ++ '\n' :: g2) ++ (v ++ (S ++ r)))) with
          | false => rfl
          | true => exact absurd hx h1
        have hfalse2 : pmatchAt S ((a :: g1) ++ '\n' :: y) = false :=
          pmatchAt_nl_false S (a :: g1) _ y hS hfalse1
        have hfa : ¬ pmatchAt S (a :: (g1 ++ '\n' :: y)) = true := by
          have hfalse3 : pmatchAt S (a :: (g1 ++ '\n' :: y)) = false := by
            simpa using hfalse2
          simp [hfalse3]
        simp only [ngSearch, if_neg hfa, if_neg h2]
        rw [hb y]
        rfl

theorem ngSearch_transfer (S : List Char) (hS : ∀ c ∈ S, c ≠ '\n')
    (g v r T r2 : List Char) (hv : ∀ c ∈ v, c ≠ '\n')
    (h : ngSearch S (g ++ (v ++ (S ++ r))) = none) :
    ngSearch S (g ++ (T ++ (S ++ r2))) = none := by
  obtain ⟨g1, g2, rfl, hb⟩ := ngSearch_blocked S hS g v r hv h
  rw [show (g1 ++ '\n' :: g2) ++ (T ++ (S ++ r2))
    = g1 ++ '\n' :: (g2 ++ (T ++ (S ++ r2))) from by simp]
  exact hb _

theorem tryMatch_transfer (F S : List Char) (hS : ∀ c ∈ S, c ≠ '\n')
    (a v rem T rem2 : List Char) (hv : ∀ c ∈ v, c ≠ '\n')
    (h : tryMatch F S (a ++ (F ++ '=' :: (v ++ S ++ rem))) = none) :
    tryMatch F S (a ++ (F ++ '=' :: (T ++ S ++ rem2))) = none := by
  have e1 : a ++ (F ++ '=' :: (v ++ S ++ rem))
      = (a ++ F ++ ['=']) ++ (v ++ (S ++ rem)) := by simp
  have e2 : a ++ (F ++ '=' :: (T ++ S ++ rem2))
      = (a ++ F ++ ['=']) ++ (T ++ (S ++ rem2)) := by simp
  rw [e1] at h
  rw [e2]
  have hlen : (F ++ ['=']).length ≤ (a ++ F ++ ['=']).length := by
    simp only [List.length_append, List.length_cons, List.length_nil]
    omega
  have hlen2 : F.length + 1 ≤ (a ++ F ++ ['=']).length := by
    simp only [List.length_append, List.length_cons, List.length_nil]
    omega
  by_cases hp : pmatchAt (F ++ ['=']) (a ++ F ++ ['=']) = true
  · unfold tryMatch at h ⊢
    rw [pmatchAt_fit (F ++ ['=']) (a ++ F ++ ['=']) (v ++ (S ++ rem)) hlen, if_pos hp,
      drop_append_le (F.length + 1) _ _ hlen2] at h
    rw [pmatchAt_fit (F ++ ['=']) (a ++ F ++ ['=']) (T ++ (S ++ rem2)) hlen, if_pos hp,
      drop_append_le (F.length + 1) _ _ hlen2]
    exact ngSearch_transfer S hS ((a ++ F ++ ['=']).drop (F.length + 1)) v rem T rem2 hv h
  · unfold tryMatch
    rw [pmatchAt_fit (F ++ ['=']) (a ++ F ++ ['=']) (T ++ (S ++ rem2)) hlen, if_neg hp]

theorem tryMatch_scan_none (F S R : List Char) (hS : ∀ c ∈ S, c ≠ '\n')
    (hFd : ∀ c ∈ F, c ≠ '.') (hSd : ∀ c ∈ S, c ≠ '.') :
    ∀ n w, w.length ≤ n → ∀ a, tryMatch F S (a ++ w) = none →
      tryMatch F S (a ++ re_sub F S R w) = none := by
  intro n
  induction n with
  | zero =>
    intro w hw a h
    have hnil : w = [] := List.length_eq_zero.mp (Nat.le_zero.mp hw)
    subst hnil
    exact h
  | succ n ih =>
    intro w hw a h
    cases w with
    | nil => exact h
    | cons d w =>
      cases hm : tryMatch F S (d :: w) with
      | none =>
        rw [re_sub_none F S R d w hm]
        rw [show a ++ d :: re_sub F S R w = (a ++ [d]) ++ re_sub F S R w from by simp]
        apply ih w (by simpa using hw) (a ++ [d])
        rw [show (a ++ [d]) ++ w = a ++ d :: w from by simp]
        exact h
      | some vr =>
        obtain ⟨v, rem⟩ := vr
        rw [re_sub_some F S R (d :: w) v rem hm]
        have hveq := tryMatch_eq F S (d :: w) v rem hFd hSd hm
        have hvnl := tryMatch_nl F S (d :: w) v rem hm
        rw [hveq] at h
        exact tryMatch_transfer F S hS a v rem R (re_sub F S R rem) hvnl h

theorem tryMatch_span (F S R : List Char) (hR : ∀ c ∈ R, c ≠ '\n')
    (hNE : noEarly S R = true) (w : List Char) :
    tryMatch F S (F ++ '=' :: (R ++ S ++ w)) = some (R, w) := by
  rw [show F ++ '=' :: (R ++ S ++ w) = (F ++ ['=']) ++ (R ++ (S ++ w)) from by simp]
  unfold tryMatch
  rw [if_pos (pmatchAt_self_append (F ++ ['=']) (R ++ (S ++ w)))]
  have hd : ((F ++ ['=']) ++ (R ++ (S ++ w))).drop (F.length + 1) = R ++ (S ++ w) := by
    have hl : (F ++ ['=']).length = F.length + 1 := by simp
    rw [← hl, List.drop_left]
  rw [hd]
  exact noEarly_ngSearch S R hR hNE w

theorem re_sub_settledAux (F S R : List Char) (hS : ∀ c ∈ S, c ≠ '\n')
    (hR : ∀ c ∈ R, c ≠ '\n') (hNE : noEarly S R = true)
    (hFd : ∀ c ∈ F, c ≠ '.') (hSd : ∀ c ∈ S, c ≠ '.') :
    ∀ n s, s.length ≤ n → re_sub F S R (re_sub F S R s) = re_sub F S R s := by
  intro n
  induction n with
  | zero =>
    intro s hs
    have hnil : s = [] := List.length_eq_zero.mp (Nat.le_zero.mp hs)
    subst hnil
    rfl
  | succ n ih =>
    intro s hs
    cases s with
    | nil => rfl
    | cons c w =>
      cases hm : tryMatch F S (c :: w) with
      | none =>
        rw [re_sub_none F S R c w hm]
        have hnone : tryMatch F S (c :: re_sub F S R w) = none := by
          have h5 := tryMatch_scan_none F S R hS hFd hSd n w (by simpa using hs) [c]
            (by simpa using hm)
          simpa using h5
        rw [re_sub_none F S R c (re_sub F S R w) hnone]
        rw [ih w (by simpa using hs)]
      | some vr =>
        obtain ⟨v, rem⟩ := vr
        have hlen := tryMatch_len F S (c :: w) v rem hm
        simp only [List.length_cons] at hlen hs
        rw [re_sub_some F S R (c :: w) v rem hm]
        rw [re_sub_some F S R _ R (re_sub F S R rem) (tryMatch_span F S R hR hNE _)]
        rw [ih rem (by omega)]

theorem re_sub_settled (F S R : List Char) (hS : ∀ c ∈ S, c ≠ '\n')
    (hR : ∀ c ∈ R, c ≠ '\n') (hNE : noEarly S R = true)
    (hFd : ∀ c ∈ F, c ≠ '.') (hSd : ∀ c ∈ S, c ≠ '.') (s : List Char) :
    re_sub F S R (re_sub F S R s) = re_sub F S R s :=
  re_sub_settledAux F S R hS hR hNE hFd hSd s.length s (Nat.le_refl _)

/-! ### The claims -/

/-- Claim C1: calling the redactor with fields `["name", "email"]`, token `"***"`,
separator `";"` on `"name=John;email=john@x.com;phone=555;"` returns exactly
`"name=***;email=***;phone=555;"`: the listed fields' values are replaced by the
token and the unlisted field `phone` is left untouched. -/
theorem claim_C1 :
    filter_datum ["name", "email"] "***" "name=John;email=john@x.com;phone=555;" ";"
      = "name=***;email=***;phone=555;" := by decide

/-- Claim C2: a field occurrence at end-of-string with no terminating separator is
left unchanged: `filter_datum ["password"] "***" "password=abc" ";"` returns
`"password=abc"`, because the non-greedy pattern requires a following separator. -/
theorem claim_C2 :
    filter_datum ["password"] "***" "password=abc" ";" = "password=abc" := by decide

/-- Claim C3, counterexample: the redactor is not idempotent for every token.  With
field `"a"`, separator `";"` and the token `"b;a=c"` (which contains the separator
followed by fresh `field=value` text), one application maps `"a=z;"` to
`"a=b;a=c;"`, and a second application maps that to `"a=b;a=c;a=b;a=c;"`. -/
theorem claim_C3_counterexample :
    ¬ (filter_datum ["a"] "b;a=c" (filter_datum ["a"] "b;a=c" "a=z;" ";") ";"
        = filter_datum ["a"] "b;a=c" "a=z;" ";") := by decide

/-- Claim C3, amended: for a single-field list whose field name and separator are
regex-literal (no regex metacharacter, so the engine treats the pattern as plain
text, as the embedding does), applying `filter_datum` a second time with the same
field, token and separator yields the same string as applying it once, provided
the separator and the token contain no newline, the token contains no backslash
(so the replacement template is the literal text the embedding emits), and the
separator has no occurrence inside `token ++ separator` before its final position
(in particular the token does not contain the separator). -/
theorem claim_C3_amended (f red msg sep : String)
    (hfl : reLiteral f.data = true) (hsl : reLiteral sep.data = true)
    (hsep : ∀ c ∈ sep.data, c ≠ '\n') (hred : ∀ c ∈ red.data, c ≠ '\n')
    (_hbs : ∀ c ∈ red.data, c ≠ '\\')
    (hne : noEarly sep.data red.data = true) :
    filter_datum [f] red (filter_datum [f] red msg sep) sep
      = filter_datum [f] red msg sep := by
  show subOne f red sep (subOne f red sep msg) = subOne f red sep msg
  show String.mk (re_sub f.data sep.data red.data (subOne f red sep msg).data)
    = String.mk (re_sub f.data sep.data red.data msg.data)
  exact congrArg String.mk (re_sub_settled f.data sep.data red.data hsep hred hne
    (reLiteral_no_dot f.data hfl) (reLiteral_no_dot sep.data hsl) msg.data)

/-- Claim C3, witness for the amended statement at field `"email"`, token `"***"`,
separator `";"`, message `"email=a@b.com;"`. -/
theorem claim_C3_witness :
    reLiteral ("email" : String).data = true ∧ reLiteral (";" : String).data = true
    ∧ (∀ c ∈ (";" : String).data, c ≠ '\n') ∧ (∀ c ∈ ("***" : String).data, c ≠ '\n')
    ∧ (∀ c ∈ ("***" : String).data, c ≠ '\\')
    ∧ noEarly (";" : String).data ("***" : String).data = true
    ∧ filter_datum ["email"] "***" (filter_datum ["email"] "***" "email=a@b.com;" ";") ";"
        = filter_datum ["email"] "***" "email=a@b.com;" ";" :=
  ⟨by decide, by decide, by decide, by decide, by decide, by decide,
    claim_C3_amended "email" "***" "email=a@b.com;" ";" (by decide) (by decide)
      (by decide) (by decide) (by decide) (by decide)⟩

/-- Claim C5, counterexample: `RedactingFormatter.format` does mutate the input
record: on a record whose `message` and `asctime` caches are empty, the record
after formatting differs from the input (the base `logging.Formatter.format`
stores `getMessage()` into `record.message` and the formatted time into
`record.asctime`). -/
theorem claim_C5_counterexample :
    ¬ ((RedactingFormatter_format PII_FIELDS sampleRecord).2 = sampleRecord) := by decide

/-- Claim C5, amended: formatting has no side effect beyond returning the
transformed string and caching derived attributes on the record: for every fields
list and record, the record after `format` is the input record with `message` set
to `getMessage()`'s value, `asctime` set to the formatted time, and — exactly when
`exc_info` is set and no exception text is cached — `exc_text` set to the
formatted exception; every other attribute is unchanged. -/
theorem claim_C5_amended (fields : List String) (r : LogRecord) :
    (RedactingFormatter_format fields r).2
      = { r with
          message := r.msg
          asctime := r.createdFmt
          excText := (if r.excInfo = true ∧ r.excText = "" then r.excFmt else r.excText) } := by
  show (Formatter_format r).2 = _
  unfold Formatter_format
  by_cases h : r.excInfo = true ∧ r.excText = ""
  · simp only [if_pos h, getMessage]
  · simp only [if_neg h, getMessage]

theorem mem_joinIn (F S : List Char) (u v : List Char)
    (ps : List (List Char × List Char)) (t : List Char) (c : Char) (hc : c ∈ S) :
    c ∈ joinIn F S ((u, v) :: ps) t := by
  show c ∈ u ++ F ++ '=' :: (v ++ S ++ joinIn F S ps t)
  simp only [List.mem_append, List.mem_cons]
  tauto

/-- Claim C6, counterexample: the pass does not preserve the original separator
characters for every separator argument.  With field `"a"` and separator `"."`
(a regex wildcard), the message `"a=xy"` — which contains no `.` at all — is
mapped to `"a=***.y"`: the matched character `x` standing for the separator is
replaced by the template's literal `.`, so no decomposition into unmatched
chunks and `field=value separator` spans relates input and output. -/
theorem claim_C6_counterexample :
    ¬ SpanChain (("." : String).data) (("***" : String).data)
      (List.map String.data ["a"]) (("a=xy" : String).data)
      (filter_datum ["a"] "***" "a=xy" ".").data := by
  intro hch
  obtain ⟨mid, hstep, hrest⟩ := hch
  obtain ⟨ps, t, hin, hmid, _⟩ := hstep
  have hout : (filter_datum ["a"] "***" "a=xy" ".").data = mid := hrest
  cases ps with
  | nil =>
    have hmid2 : mid = t := hmid
    have hin2 : ("a=xy" : String).data = t := hin
    have hbad : (filter_datum ["a"] "***" "a=xy" ".").data = ("a=xy" : String).data := by
      rw [hout, hmid2, ← hin2]
    exact absurd hbad (by decide)
  | cons p ps =>
    obtain ⟨u, v⟩ := p
    have hdot : '.' ∈ ("a=xy" : String).data := by
      rw [hin]
      exact mem_joinIn _ _ u v ps t '.' (by decide)
    exact absurd hdot (by decide)

/-- Claim C6, amended: for regex-literal fields and separator (no regex
metacharacter, so the engine matches them as plain text, as the embedding does)
and a backslash-free token (so the replacement template is literal), each
redaction pass preserves every character outside the matched spans — the input is
an interleaving of unmatched chunks with `field=value sep` spans, the output the
same interleaving with each value replaced by the token and the field name and
separator kept, where each replaced value contains no newline and no internal
separator occurrence (it runs exactly to the next separator) — and `filter_datum`
is the sequential composition of such passes over the fields. -/
theorem claim_C6 (fields : List String) (red msg sep : String)
    (hfl : ∀ f ∈ fields, reLiteral f.data = true) (hsl : reLiteral sep.data = true)
    (_hbs : ∀ c ∈ red.data, c ≠ '\\') :
    SpanChain sep.data red.data (fields.map String.data) msg.data
      (filter_datum fields red msg sep).data := by
  induction fields generalizing msg with
  | nil => rfl
  | cons f fs ih =>
    exact ⟨(subOne f red sep msg).data,
      spanStep_re_sub f.data sep.data red.data msg.data
        (reLiteral_no_dot f.data (hfl f (List.mem_cons_self f fs)))
        (reLiteral_no_dot sep.data hsl),
      ih (subOne f red sep msg) (fun g hg => hfl g (List.mem_cons_of_mem f hg))⟩

/-- Claim C6, witness for the amended statement at fields `["name", "email"]`,
token `"***"`, separator `";"`, message `"name=John;email=a@b.com;"`. -/
theorem claim_C6_witness :
    (∀ f ∈ (["name", "email"] : List String), reLiteral f.data = true)
    ∧ reLiteral (";" : String).data = true
    ∧ (∀ c ∈ ("***" : String).data, c ≠ '\\')
    ∧ SpanChain (";" : String).data ("***" : String).data
        (List.map String.data ["name", "email"]) (("name=John;email=a@b.com;" : String).data)
        (filter_datum ["name", "email"] "***" "name=John;email=a@b.com;" ";").data :=
  ⟨by decide, by decide, by decide,
    claim_C6 ["name", "email"] "***" "name=John;email=a@b.com;" ";"
      (by decide) (by decide) (by decide)⟩

/-- Claim C7, counterexample: a message with no occurrence of the field-pattern
text is not always returned unchanged.  With field `"a"` and separator `"."`,
the message `"a=xy"` contains no `.` at all — so no occurrence of the
`field=...separator` pattern as text — yet the code's compiled pattern
`a=.*?.` matches through the `.` wildcard and the message is changed to
`"a=***.y"`. -/
theorem claim_C7_counterexample :
    occursIn (("." : String).data) (("a=xy" : String).data) = false
    ∧ ¬ (filter_datum ["a"] "***" "a=xy" "." = "a=xy") :=
  ⟨by decide, by decide⟩

/-- Claim C7, amended: for regex-literal fields and separator (no regex
metacharacter, so pattern matching is plain text matching, as the embedding's
`hasMatch` decides) and a backslash-free token (`re.sub` parses the replacement
template even when nothing matches), every message in which no listed field's
pattern matches is returned unchanged. -/
theorem claim_C7 (fields : List String) (red msg sep : String)
    (_hfl : ∀ f ∈ fields, reLiteral f.data = true) (_hsl : reLiteral sep.data = true)
    (_hbs : ∀ c ∈ red.data, c ≠ '\\')
    (h : ∀ f ∈ fields, hasMatch f.data sep.data msg.data = false) :
    filter_datum fields red msg sep = msg := by
  induction fields with
  | nil => rfl
  | cons f fs ih =>
    have h1 : subOne f red sep msg = msg :=
      subOne_noMatch f red sep msg (h f (List.mem_cons_self f fs))
    show filter_datum fs red (subOne f red sep msg) sep = msg
    rw [h1]
    exact ih (fun g hg => _hfl g (List.mem_cons_of_mem f hg))
      (fun g hg => h g (List.mem_cons_of_mem f hg))

/-- Claim C7, witness: the fields `"name"` and `"email"` are regex-literal, their
patterns have no match in `"phone=555;"`, and the redactor leaves that message
unchanged. -/
theorem claim_C7_witness :
    (∀ f ∈ (["name", "email"] : List String), reLiteral f.data = true)
    ∧ reLiteral (";" : String).data = true
    ∧ (∀ c ∈ ("***" : String).data, c ≠ '\\')
    ∧ (∀ f ∈ (["name", "email"] : List String),
        hasMatch f.data (";" : String).data ("phone=555;" : String).data = false)
    ∧ filter_datum ["name", "email"] "***" "phone=555;" ";" = "phone=555;" :=
  ⟨by decide, by decide, by decide, by decide,
    claim_C7 ["name", "email"] "***" "phone=555;" ";"
      (by decide) (by decide) (by decide) (by decide)⟩

/-- Claim C8: with an empty fields list, `filter_datum` is the identity on
messages, for every token and separator. -/
theorem claim_C8 (red msg sep : String) : filter_datum [] red msg sep = msg := rfl

/-- Claim C9: for a record with logger name `user_data`, level `INFO` and message
`email=a@b.com;`, the formatter's rendered line follows the fixed template
`[HOLBERTON] name levelname asctime: message` with the email value redacted by the
pre-configured token `"***"` and separator `";"`; in particular the line contains
the substring `"email=***;"` and the literal level name `"INFO"`. -/
theorem claim_C9 :
    (RedactingFormatter_format PII_FIELDS sampleRecord).1
      = "[HOLBERTON] user_data INFO 2024-06-01 12:00:00,000: email=***;"
    ∧ occursIn ("email=***;" : String).data
        (RedactingFormatter_format PII_FIELDS sampleRecord).1.data = true
    ∧ occursIn ("INFO" : String).data
        (RedactingFormatter_format PII_FIELDS sampleRecord).1.data = true :=
  ⟨by decide, by decide, by decide⟩

/-- Claim C10: field matching is unanchored substring matching: a key whose name
merely ends with a listed field name is also redacted
(`filter_datum ["email"] "***" "user_email=x;" ";"` gives `"user_email=***;"`),
and a `field=value;`-shaped occurrence embedded inside another pair's value is
likewise replaced. -/
theorem claim_C10 :
    filter_datum ["email"] "***" "user_email=x;" ";" = "user_email=***;"
    ∧ filter_datum ["email"] "***" "data=email=secret;;" ";" = "data=email=***;;" :=
  ⟨by decide, by decide⟩

end FilteredLogger
